import Mathlib

/-!
# Verification of `file_split_merge.py`

A shallow embedding of the split/merge/checksum core of `file_split_merge.py`
and proofs about the specification's claims.

Modelling conventions:

* File contents are byte sequences, modelled as `List Nat`.
* Strings (file names, the text stored in the digest sidecar) are modelled as
  their code-point sequences, also `List Nat`; for the ASCII text this program
  produces, the code points coincide with the stored bytes, so `write_text` /
  `read_text` need no separate encoding step.
* A directory is an association list from file names to contents.  `writeFile`
  replaces any existing entry for the name (create-or-truncate semantics);
  directory listing order is immaterial because the merger sorts what it
  discovers.
* `hashlib.sha256` is an external library primitive; it is abstracted as a
  parameter `core : Bytes → Bytes` mapping a full byte stream to its digest
  bytes.  The streamed `h.update` loop of `sha256sum` accumulates the digest
  of the whole content, so `sha256sum` is `hexEncode (core data)`; `hexEncode`
  models `hexdigest()`'s lowercase hexadecimal rendering.  Theorems quantify
  over `core`, hence hold for the real SHA-256 instance.
* `math.ceil(total_size / chunk_size)` is modelled as exact ceiling division
  on naturals (the intended real-valued ceiling; IEEE float rounding of the
  intermediate quotient is out of scope).
-/

namespace FileSplitMerge

/-- File contents: a byte sequence. -/
abbrev Bytes := List Nat

/-- A file or path name, as its sequence of code points. -/
abbrev Name := List Nat

/-- A directory: an association list from file names to file contents. -/
abbrev Dir := List (Name × Bytes)

/-- The names present in a directory (what `glob` filters over). -/
def listing (d : Dir) : List Name := d.map Prod.fst

/-- Read a file's content (`open("rb").read()` / `read_text`); `none` when absent. -/
def readFile (d : Dir) (n : Name) : Option Bytes :=
  (d.find? (fun p => p.1 == n)).map Prod.snd

/-- Create-or-truncate a file with content `v` (`open("wb")` + write, `write_text`). -/
def writeFile (d : Dir) (n : Name) (v : Bytes) : Dir :=
  d.filter (fun p => !(p.1 == n)) ++ [(n, v)]

/-- `CHUNK_SUFFIX_LEN = 3`  (supports up to 999 chunk indices). -/
def CHUNK_SUFFIX_LEN : Nat := 3

/-- Decimal digits of `n`, as code points, fuel-driven so it reduces by `rfl`.
When `fuel = 0` and `n < 10` this still returns the single correct digit. -/
def decDigitsAux : Nat → Nat → List Nat
  | 0, n => [48 + n % 10]
  | fuel + 1, n => if n < 10 then [48 + n] else decDigitsAux fuel (n / 10) ++ [48 + n % 10]

/-- Decimal rendering of `n` (code points of `str(n)`), no leading zeros. -/
def decDigits (n : Nat) : List Nat := decDigitsAux n n

/-- Python's `f"{idx:03d}"`: decimal digits of `idx`, zero-padded on the left to
width `CHUNK_SUFFIX_LEN` (wider numbers keep all their digits). -/
def padIndex (idx : Nat) : Name :=
  List.replicate (CHUNK_SUFFIX_LEN - (decDigits idx).length) 48 ++ decDigits idx

/-- Chunk file name `f"{input_path.name}.{idx:03d}"`; 46 is `'.'`. -/
def chunkName (f : Name) (idx : Nat) : Name := f ++ 46 :: padIndex idx

/-- The code points of the string `".sha256"`. -/
def dotSha256 : Name := [46, 115, 104, 97, 50, 53, 54]

/-- Sidecar name `f"{input_path.name}.sha256"`. -/
def sidecarName (f : Name) : Name := f ++ dotSha256

/-- The glob character class `[0-9]`: an ASCII decimal digit code point. -/
def isDig (c : Nat) : Bool := 48 ≤ c && c ≤ 57

/-- The merger's discovery pattern `f"{chunk_prefix.name}.[0-9][0-9][0-9]"`:
the name is the prefix, a dot, then exactly `CHUNK_SUFFIX_LEN` decimal digits. -/
def isChunkName (pre n : Name) : Bool :=
  (n.take (pre.length + 1) == pre ++ [46]) &&
  ((n.drop (pre.length + 1)).length == CHUNK_SUFFIX_LEN) &&
  (n.drop (pre.length + 1)).all isDig

/-- One lowercase hexadecimal digit: `0-9` then `a-f` (97 is `'a'`). -/
def hexChar (n : Nat) : Nat := if n < 10 then 48 + n else 87 + n

/-- `hexdigest()`: two lowercase hex digits per digest byte. -/
def hexEncode (bs : Bytes) : Name :=
  (bs.map (fun b => [hexChar (b / 16 % 16), hexChar (b % 16)])).flatten

/-- `sha256sum(path)`: the buffered `h.update` loop feeds the whole content of
the file through the digest, and `hexdigest()` renders it in lowercase hex. -/
def sha256sum (core : Bytes → Bytes) (data : Bytes) : Name := hexEncode (core data)

/-- Exact ceiling division, modelling `math.ceil(total_size / chunk_size)`. -/
def ceilDiv (a b : Nat) : Nat := (a + b - 1) / b

/-- The bytes returned by the `idx`-th sequential `src.read(chunk_size)`:
the slice of `data` from `idx*S`, at most `S` bytes long. -/
def slice (S : Nat) (data : Bytes) (idx : Nat) : Bytes :=
  (data.drop (idx * S)).take S

/-- The chunk-writing loop of `split_file`: for each index in order, write the
next sequential read's bytes to the chunk file named for that index. -/
def writeChunks (S : Nat) (f : Name) (data : Bytes) (idxs : List Nat) (d : Dir) : Dir :=
  match idxs with
  | [] => d
  | i :: rest => writeChunks S f data rest (writeFile d (chunkName f i) (slice S data i))

/-- `split_file(input_path, chunk_size_mb, output_dir)`, acting on directory `d`
with an input file of name `f` and content `data`.  Returns the updated
directory and the list of chunk paths in creation order. -/
def split_file (core : Bytes → Bytes) (d : Dir) (f : Name) (data : Bytes)
    (chunk_size_mb : Nat) : Dir × List Name :=
  let chunk_size := chunk_size_mb * (1 <<< 20)
  let total_parts := ceilDiv data.length chunk_size
  let d1 := writeChunks chunk_size f data (List.range total_parts) d
  (writeFile d1 (sidecarName f) (sha256sum core data),
   (List.range total_parts).map (chunkName f))

/-- Lexicographic comparison of names by code point, the order `sorted` uses
on the discovered paths (they share the parent directory). -/
def lexLe : List Nat → List Nat → Bool
  | [], _ => true
  | _ :: _, [] => false
  | a :: as, b :: bs => if a = b then lexLe as bs else decide (a < b)

/-- `lexLe` as a binary relation. -/
def nameLe (a b : Name) : Prop := lexLe a b = true

instance : DecidableRel nameLe := fun a b => inferInstanceAs (Decidable (lexLe a b = true))

/-- `sorted(chunk_prefix.parent.glob(f"{chunk_prefix.name}.[0-9][0-9][0-9]"))`:
the matching names of the parent directory in lexicographic order. -/
def discoverNames (pre : Name) (d : Dir) : List Name :=
  List.insertionSort nameLe ((listing d).filter (fun n => isChunkName pre n))

/-- Python `str.strip()` whitespace: space, tab, newline, CR, VT, FF. -/
def isSpace (c : Nat) : Bool :=
  c == 32 || c == 9 || c == 10 || c == 13 || c == 11 || c == 12

/-- Python `str.strip()`: drop leading and trailing whitespace. -/
def pystrip (s : List Nat) : List Nat :=
  ((s.dropWhile isSpace).reverse.dropWhile isSpace).reverse

/-- Failures of `merge_files` (`FileNotFoundError`). -/
inductive MergeErr where
  | notFound
deriving DecidableEq

/-- The merger's concatenation loop: read each discovered chunk in sorted
order and append its full content to the output. -/
def mergeOut (pre : Name) (d : Dir) : Bytes :=
  ((discoverNames pre d).map (fun n => (readFile d n).getD [])).flatten

/-- The verification step of `merge_files`: if the sidecar exists (looked up
after the output file was written), compare the freshly computed digest of the
output with the sidecar text stripped of surrounding whitespace, by exact
string equality; `none` when there is no sidecar. -/
def verdictOf (core : Bytes → Bytes) (pre : Name) (d1 : Dir) (out : Bytes) : Option Bool :=
  match readFile d1 (sidecarName pre) with
  | none => none
  | some c => some (sha256sum core out == pystrip c)

/-- `merge_files(chunk_prefix, output_path)`.  `parent` is the content of the
prefix's parent directory (`none` when `chunk_prefix.parent.is_dir()` fails).
On success returns the directory with the output file written, the output
bytes, and the verification verdict (`none` when no sidecar was present). -/
def merge_files (core : Bytes → Bytes) :
    Option Dir → Name → Option Name → Except MergeErr (Dir × Bytes × Option Bool)
  | none, _, _ => .error .notFound
  | some d, pre, outputName =>
    if (discoverNames pre d).isEmpty then .error .notFound
    else
      let outName := outputName.getD pre
      let out := mergeOut pre d
      let d1 := writeFile d outName out
      .ok (d1, out, verdictOf core pre d1 out)

/-- Sizes of the successful reads of `sha256sum`'s loop
`iter(lambda: f.read(buf_size), b"")` on a file of `total` bytes; fuel-driven
(`fuel ≥ total` suffices) so it reduces by `rfl`. -/
def sha256ReadSizesAux (bufSize : Nat) : Nat → Nat → List Nat
  | 0, _ => []
  | fuel + 1, total =>
    if total = 0 ∨ bufSize = 0 then []
    else min bufSize total :: sha256ReadSizesAux bufSize fuel (total - bufSize)

/-- Sizes of the data returned by each buffered read of `sha256sum`. -/
def sha256ReadSizes (bufSize total : Nat) : List Nat :=
  sha256ReadSizesAux bufSize total total

/-- Sizes of the data returned by each `src.read(chunk_size)` of `split_file`
on a `T`-byte input with chunk size `S`. -/
def splitReadSizes (S T : Nat) : List Nat :=
  (List.range (ceilDiv T S)).map (fun i => min S (T - i * S))

/-- Sizes of the data returned by each `src.read()` of `merge_files`: each
discovered chunk file is read whole, in one read. -/
def mergeReadSizes (pre : Name) (d : Dir) : List Nat :=
  (discoverNames pre d).map (fun n => ((readFile d n).getD []).length)

/-- Claim C8 as stated: some fixed bound `B` dominates every read that the
checksum utility (with its 1 MiB buffer), the splitter (any positive
`chunk_size_mb`) and the merger (any directory) ever perform. -/
def BoundedReads : Prop :=
  ∃ B : Nat,
    (∀ total s, s ∈ sha256ReadSizes (1 <<< 20) total → s ≤ B) ∧
    (∀ mb T s, 1 ≤ mb → s ∈ splitReadSizes (mb * (1 <<< 20)) T → s ≤ B) ∧
    (∀ pre d s, s ∈ mergeReadSizes pre d → s ≤ B)

/-- A lowercase hexadecimal digit code point: `'0'-'9'` or `'a'-'f'`. -/
def isLowerHex (c : Nat) : Bool := (48 ≤ c && c ≤ 57) || (97 ≤ c && c ≤ 102)

/-! ## Directory lemmas -/

lemma find?_filter_of_imp {α : Type} (l : List α) (p q : α → Bool)
    (h : ∀ x, p x = true → q x = true) : (l.filter q).find? p = l.find? p := by
  induction l with
  | nil => rfl
  | cons a t ih =>
    by_cases hq : q a = true
    · rw [List.filter_cons_of_pos hq]
      by_cases hp : p a = true
      · rw [List.find?_cons_of_pos _ hp, List.find?_cons_of_pos _ hp]
      · rw [List.find?_cons_of_neg _ (by simpa using hp),
          List.find?_cons_of_neg _ (by simpa using hp), ih]
    · have hp : ¬ p a = true := fun hpa => hq (h a hpa)
      rw [List.filter_cons_of_neg (by simpa using hq),
        List.find?_cons_of_neg _ (by simpa using hp), ih]

lemma readFile_writeFile_self (d : Dir) (n : Name) (v : Bytes) :
    readFile (writeFile d n v) n = some v := by
  unfold readFile writeFile
  have hnone : (d.filter (fun p => !(p.1 == n))).find? (fun p => p.1 == n) = none := by
    rw [List.find?_eq_none]
    intro x hx
    have := (List.mem_filter.mp hx).2
    simp only [Bool.not_eq_true'] at this
    simp [this]
  rw [List.find?_append, hnone]
  simp

lemma readFile_writeFile_ne (d : Dir) (m n : Name) (v : Bytes) (h : n ≠ m) :
    readFile (writeFile d m v) n = readFile d n := by
  unfold readFile writeFile
  rw [List.find?_append]
  have h2 : ([(m, v)].find? (fun p => p.1 == n)) = none := by
    simp [List.find?_cons, beq_eq_false_iff_ne.mpr (Ne.symm h)]
  have h1 : (d.filter (fun p => !(p.1 == m))).find? (fun p => p.1 == n) =
      d.find? (fun p => p.1 == n) := by
    apply find?_filter_of_imp
    intro x hx
    have : x.1 = n := beq_iff_eq.mp hx
    simp [this, beq_eq_false_iff_ne.mpr h]
  rw [h1, h2]
  cases d.find? (fun p => p.1 == n) <;> rfl

lemma listing_writeFile (d : Dir) (n : Name) (v : Bytes) :
    listing (writeFile d n v) = (listing d).filter (fun x => !(x == n)) ++ [n] := by
  unfold listing writeFile
  rw [List.map_append]
  congr 1
  induction d with
  | nil => rfl
  | cons a t ih =>
    by_cases ha : a.1 = n
    · simp [List.filter_cons, ha, ih]
    · simp only [List.filter_cons, List.map_cons]
      rw [if_pos (by simp [ha]), if_pos (by simp [ha])]
      simp [ih]

lemma filter_eq_self_of_all {α : Type} (l : List α) (p : α → Bool)
    (h : ∀ x ∈ l, p x = true) : l.filter p = l :=
  List.filter_eq_self.mpr h

lemma find?_eq_none_of_not_mem (d : Dir) (n : Name) (h : n ∉ listing d) :
    d.find? (fun p => p.1 == n) = none := by
  rw [List.find?_eq_none]
  intro x hx hxn
  exact h (by simpa [listing, beq_iff_eq.mp hxn] using List.mem_map_of_mem Prod.fst hx)

lemma writeFile_of_not_mem (d : Dir) (n : Name) (v : Bytes) (h : n ∉ listing d) :
    writeFile d n v = d ++ [(n, v)] := by
  unfold writeFile
  congr 1
  apply filter_eq_self_of_all
  intro x hx
  have : x.1 ≠ n := by
    intro hxn
    exact h (by simpa [listing, hxn] using List.mem_map_of_mem Prod.fst hx)
  simp [this]

/-! ## Lexicographic order lemmas -/

lemma lexLe_refl (a : List Nat) : lexLe a a = true := by
  induction a with
  | nil => rfl
  | cons x as ih => simp [lexLe, ih]

lemma lexLe_total (a b : List Nat) : lexLe a b = true ∨ lexLe b a = true := by
  induction a generalizing b with
  | nil => left; rfl
  | cons x as ih =>
    cases b with
    | nil => right; rfl
    | cons y bs =>
      by_cases hxy : x = y
      · subst hxy
        simpa [lexLe] using ih bs
      · rcases Nat.lt_or_ge x y with h | h
        · left; simp [lexLe, hxy, h]
        · right
          have hyx : y ≠ x := fun hh => hxy hh.symm
          have : y < x := by omega
          simp [lexLe, hyx, this]

lemma lexLe_trans (a b c : List Nat) (hab : lexLe a b = true) (hbc : lexLe b c = true) :
    lexLe a c = true := by
  induction a generalizing b c with
  | nil => rfl
  | cons x as ih =>
    cases b with
    | nil => simp [lexLe] at hab
    | cons y bs =>
      cases c with
      | nil => simp [lexLe] at hbc
      | cons z cs =>
        by_cases hxy : x = y <;> by_cases hyz : y = z
        · subst hxy; subst hyz
          simp only [lexLe, if_pos rfl] at hab hbc ⊢
          exact ih bs cs hab hbc
        · subst hxy
          have hlt : x < z := by
            simp only [lexLe, if_neg hyz, decide_eq_true_eq] at hbc
            exact hbc
          simp [lexLe, hyz, hlt]
        · subst hyz
          have hlt : x < y := by
            simp only [lexLe, if_neg hxy, decide_eq_true_eq] at hab
            exact hab
          simp [lexLe, hxy, hlt]
        · have h1 : x < y := by
            simp only [lexLe, if_neg hxy, decide_eq_true_eq] at hab
            exact hab
          have h2 : y < z := by
            simp only [lexLe, if_neg hyz, decide_eq_true_eq] at hbc
            exact hbc
          have hxz : x ≠ z := by omega
          simp only [lexLe, if_neg hxz, decide_eq_true_eq]
          omega

lemma lexLe_antisymm (a b : List Nat) (hab : lexLe a b = true) (hba : lexLe b a = true) :
    a = b := by
  induction a generalizing b with
  | nil =>
    cases b with
    | nil => rfl
    | cons y bs => simp [lexLe] at hba
  | cons x as ih =>
    cases b with
    | nil => simp [lexLe] at hab
    | cons y bs =>
      by_cases hxy : x = y
      · subst hxy
        simp only [lexLe, if_pos rfl] at hab hba
        rw [ih bs hab hba]
      · have h1 : x < y := by
          simp only [lexLe, if_neg hxy, decide_eq_true_eq] at hab
          exact hab
        have h2 : y < x := by
          have hyx : y ≠ x := fun hh => hxy hh.symm
          simp only [lexLe, if_neg hyx, decide_eq_true_eq] at hba
          exact hba
        omega

instance : IsTotal Name nameLe := ⟨fun a b => lexLe_total a b⟩

instance : IsTrans Name nameLe := ⟨fun a b c => lexLe_trans a b c⟩

instance : IsAntisymm Name nameLe := ⟨fun a b => lexLe_antisymm a b⟩

instance : IsRefl Name nameLe := ⟨fun a => lexLe_refl a⟩

lemma lexLe_append_same (p s t : List Nat) : lexLe (p ++ s) (p ++ t) = lexLe s t := by
  induction p with
  | nil => rfl
  | cons a q ih => simp [lexLe, ih]

/-! ## Decimal rendering lemmas -/

lemma decDigitsAux_congr (n : Nat) : ∀ f1 f2, n ≤ f1 → n ≤ f2 →
    decDigitsAux f1 n = decDigitsAux f2 n := by
  induction n using Nat.strong_induction_on with
  | _ n ih =>
    intro f1 f2 h1 h2
    match f1, f2 with
    | 0, 0 => rfl
    | 0, f2 + 1 =>
      have hn : n = 0 := by omega
      subst hn
      simp [decDigitsAux]
    | f1 + 1, 0 =>
      have hn : n = 0 := by omega
      subst hn
      simp [decDigitsAux]
    | f1 + 1, f2 + 1 =>
      simp only [decDigitsAux]
      by_cases h : n < 10
      · simp [h]
      · rw [if_neg h, if_neg h]
        have hd : n / 10 < n := Nat.div_lt_self (by omega) (by omega)
        rw [ih (n / 10) hd f1 f2 (by omega) (by omega)]

lemma decDigits_eq (n : Nat) :
    decDigits n = if n < 10 then [48 + n] else decDigits (n / 10) ++ [48 + n % 10] := by
  unfold decDigits
  by_cases h : n < 10
  · rw [if_pos h]
    cases n with
    | zero => rfl
    | succ m => simp [decDigitsAux, h]
  · rw [if_neg h]
    cases n with
    | zero => omega
    | succ m =>
      have hd : (m + 1) / 10 < m + 1 := Nat.div_lt_self (by omega) (by omega)
      simp only [decDigitsAux, if_neg h]
      congr 1
      exact decDigitsAux_congr ((m + 1) / 10) m ((m + 1) / 10) (by omega) (le_refl _)

lemma decDigits_lt10 (n : Nat) (h : n < 10) : decDigits n = [48 + n] := by
  rw [decDigits_eq, if_pos h]

lemma decDigits_ge10 (n : Nat) (h : 10 ≤ n) :
    decDigits n = decDigits (n / 10) ++ [48 + n % 10] := by
  rw [decDigits_eq, if_neg (by omega)]

lemma decDigits_length_pos (n : Nat) : 1 ≤ (decDigits n).length := by
  rw [decDigits_eq]
  split <;> simp

lemma decDigits_length_ge2 (n : Nat) (h : 10 ≤ n) : 2 ≤ (decDigits n).length := by
  rw [decDigits_ge10 n h, List.length_append]
  have := decDigits_length_pos (n / 10)
  simp
  omega

lemma decDigits_length_ge3 (n : Nat) (h : 100 ≤ n) : 3 ≤ (decDigits n).length := by
  rw [decDigits_ge10 n (by omega), List.length_append]
  have := decDigits_length_ge2 (n / 10) (by omega)
  simp
  omega

lemma decDigits_length_ge4 (n : Nat) (h : 1000 ≤ n) : 4 ≤ (decDigits n).length := by
  rw [decDigits_ge10 n (by omega), List.length_append]
  have := decDigits_length_ge3 (n / 10) (by omega)
  simp
  omega

lemma decDigits_length_le3 (n : Nat) (h : n < 1000) : (decDigits n).length ≤ 3 := by
  by_cases h1 : n < 10
  · rw [decDigits_lt10 n h1]; simp
  · by_cases h2 : n < 100
    · rw [decDigits_ge10 n (by omega), decDigits_lt10 (n / 10) (by omega)]
      simp
    · rw [decDigits_ge10 n (by omega), decDigits_ge10 (n / 10) (by omega),
        decDigits_lt10 (n / 10 / 10) (by omega)]
      simp

lemma decDigits_head_nonzero (n : Nat) (h : 10 ≤ n) :
    ∃ c cs, decDigits n = c :: cs ∧ 49 ≤ c ∧ c ≤ 57 := by
  induction n using Nat.strong_induction_on with
  | _ n ih =>
    by_cases h1 : n / 10 < 10
    · refine ⟨48 + n / 10, [48 + n % 10], ?_, by omega, by omega⟩
      rw [decDigits_ge10 n h, decDigits_lt10 (n / 10) h1]
      rfl
    · obtain ⟨c, cs, hc, hc1, hc2⟩ :=
        ih (n / 10) (Nat.div_lt_self (by omega) (by omega)) (by omega)
      exact ⟨c, cs ++ [48 + n % 10], by rw [decDigits_ge10 n h, hc]; rfl, hc1, hc2⟩

lemma decDigits_all_isDig (n : Nat) : ∀ c ∈ decDigits n, isDig c = true := by
  induction n using Nat.strong_induction_on with
  | _ n ih =>
    intro c hc
    by_cases h : n < 10
    · rw [decDigits_lt10 n h] at hc
      simp at hc
      simp [isDig, hc]
      omega
    · rw [decDigits_ge10 n (by omega)] at hc
      rcases List.mem_append.mp hc with h1 | h1
      · exact ih (n / 10) (Nat.div_lt_self (by omega) (by omega)) c h1
      · simp at h1
        simp [isDig, h1]
        omega

lemma decDigits_inj (a b : Nat) (h : decDigits a = decDigits b) : a = b := by
  induction a using Nat.strong_induction_on generalizing b with
  | _ a ih =>
    by_cases ha : a < 10 <;> by_cases hb : b < 10
    · rw [decDigits_lt10 a ha, decDigits_lt10 b hb] at h
      simp at h
      omega
    · have h1 := decDigits_length_ge2 b (by omega)
      rw [← h, decDigits_lt10 a ha] at h1
      simp at h1
    · have h1 := decDigits_length_ge2 a (by omega)
      rw [h, decDigits_lt10 b hb] at h1
      simp at h1
    · rw [decDigits_ge10 a (by omega), decDigits_ge10 b (by omega)] at h
      obtain ⟨h1, h2⟩ := List.append_inj' h rfl
      simp at h2
      have h3 : a / 10 = b / 10 :=
        ih (a / 10) (Nat.div_lt_self (by omega) (by omega)) (b / 10) h1
      omega

/-! ## Chunk-name formatting lemmas -/

lemma padIndex_lt1000 (i : Nat) (h : i < 1000) :
    padIndex i = [48 + i / 100, 48 + i / 10 % 10, 48 + i % 10] := by
  by_cases h1 : i < 10
  · have e1 : i / 100 = 0 := by omega
    have e2 : i / 10 % 10 = 0 := by omega
    have e3 : i % 10 = i := by omega
    rw [padIndex, decDigits_lt10 i h1, e1, e2, e3]
    rfl
  · by_cases h2 : i < 100
    · have e1 : i / 100 = 0 := by omega
      have e2 : i / 10 % 10 = i / 10 := by omega
      rw [padIndex, decDigits_ge10 i (by omega), decDigits_lt10 (i / 10) (by omega), e1, e2]
      rfl
    · have e1 : i / 10 / 10 = i / 100 := by omega
      have e2 : i / 10 % 10 < 10 := by omega
      rw [padIndex, decDigits_ge10 i (by omega), decDigits_ge10 (i / 10) (by omega),
        decDigits_lt10 (i / 10 / 10) (by omega), e1]
      rfl

lemma padIndex_length3 (i : Nat) (h : i < 1000) : (padIndex i).length = 3 := by
  rw [padIndex_lt1000 i h]
  rfl

lemma padIndex_ge1000 (i : Nat) (h : 1000 ≤ i) : padIndex i = decDigits i := by
  have h4 := decDigits_length_ge4 i h
  rw [padIndex]
  have : CHUNK_SUFFIX_LEN - (decDigits i).length = 0 := by
    unfold CHUNK_SUFFIX_LEN
    omega
  rw [this]
  rfl

lemma padIndex_length_ge4 (i : Nat) (h : 1000 ≤ i) : 4 ≤ (padIndex i).length := by
  rw [padIndex_ge1000 i h]
  exact decDigits_length_ge4 i h

lemma padIndex_all_isDig (i : Nat) : ∀ c ∈ padIndex i, isDig c = true := by
  intro c hc
  rcases List.mem_append.mp hc with h1 | h1
  · have : c = 48 := List.eq_of_mem_replicate h1
    simp [isDig, this]
  · exact decDigits_all_isDig i c h1

lemma padIndex_inj (a b : Nat) (h : padIndex a = padIndex b) : a = b := by
  by_cases ha : a < 1000 <;> by_cases hb : b < 1000
  · rw [padIndex_lt1000 a ha, padIndex_lt1000 b hb] at h
    simp at h
    omega
  · have h1 := padIndex_length_ge4 b (by omega)
    rw [← h, padIndex_length3 a ha] at h1
    omega
  · have h1 := padIndex_length_ge4 a (by omega)
    rw [h, padIndex_length3 b hb] at h1
    omega
  · rw [padIndex_ge1000 a (by omega), padIndex_ge1000 b (by omega)] at h
    exact decDigits_inj a b h

lemma chunkName_inj (f : Name) : Function.Injective (chunkName f) := by
  intro a b h
  unfold chunkName at h
  have h1 := List.append_cancel_left h
  simp at h1
  exact padIndex_inj a b h1

lemma sidecarName_ne_chunkName (f : Name) (i : Nat) : sidecarName f ≠ chunkName f i := by
  intro h
  unfold sidecarName chunkName dotSha256 at h
  have h1 := List.append_cancel_left h
  simp at h1
  have h2 : (115 : Nat) ∈ padIndex i := by
    rw [← h1]
    simp
  have := padIndex_all_isDig i 115 h2
  simp [isDig] at this

/-! ## Discovery pattern lemmas -/

lemma isChunkName_chunkName (f : Name) (i : Nat) :
    isChunkName f (chunkName f i) = decide (i < 1000) := by
  have hsplit : chunkName f i = (f ++ [46]) ++ padIndex i := by
    simp [chunkName]
  have hlen : (f ++ [46]).length = f.length + 1 := by simp
  have htake : (chunkName f i).take (f.length + 1) = f ++ [46] := by
    rw [hsplit, List.take_left' hlen]
  have hdrop : (chunkName f i).drop (f.length + 1) = padIndex i := by
    rw [hsplit, List.drop_left' hlen]
  unfold isChunkName
  rw [htake, hdrop, beq_self_eq_true]
  rcases Nat.lt_or_ge i 1000 with h | h
  · have h3 : ((padIndex i).length == CHUNK_SUFFIX_LEN) = true := by
      rw [padIndex_length3 i h]
      rfl
    have hall : (padIndex i).all isDig = true := by
      rw [List.all_eq_true]
      exact padIndex_all_isDig i
    rw [h3, hall]
    simp [h]
  · have h4 := padIndex_length_ge4 i h
    have h3 : ((padIndex i).length == CHUNK_SUFFIX_LEN) = false := by
      rw [beq_eq_false_iff_ne]
      unfold CHUNK_SUFFIX_LEN
      omega
    rw [h3]
    simp
    omega

lemma isChunkName_sidecarName (f : Name) : isChunkName f (sidecarName f) = false := by
  have hsplit : sidecarName f = (f ++ [46]) ++ [115, 104, 97, 50, 53, 54] := by
    simp [sidecarName, dotSha256]
  have hlen : (f ++ [46]).length = f.length + 1 := by simp
  have hdrop : (sidecarName f).drop (f.length + 1) = [115, 104, 97, 50, 53, 54] := by
    rw [hsplit, List.drop_left' hlen]
  unfold isChunkName
  rw [hdrop]
  simp [CHUNK_SUFFIX_LEN]

lemma nameLe_chunkName_iff (f : Name) (i j : Nat) (hi : i < 1000) (hj : j < 1000) :
    nameLe (chunkName f i) (chunkName f j) ↔ i ≤ j := by
  unfold nameLe chunkName
  have hs : ∀ k, f ++ 46 :: padIndex k = (f ++ [46]) ++ padIndex k := by
    intro k
    simp
  rw [hs i, hs j, lexLe_append_same]
  rw [padIndex_lt1000 i hi, padIndex_lt1000 j hj]
  simp only [lexLe]
  split_ifs <;> simp_all <;> omega

/-! ## Ceiling division lemmas -/

lemma ceilDiv_zero_left (b : Nat) : ceilDiv 0 b = 0 := by
  unfold ceilDiv
  cases b with
  | zero => rfl
  | succ k =>
    have h : 0 + (k + 1) - 1 = k := by omega
    rw [h]
    exact Nat.div_eq_of_lt (by omega)

lemma ceilDiv_eq_zero_iff (a b : Nat) (hb : 1 ≤ b) : ceilDiv a b = 0 ↔ a = 0 := by
  constructor
  · intro h
    by_contra ha
    have h1 : 1 * b ≤ a + b - 1 := by omega
    have h2 : 1 ≤ (a + b - 1) / b := (Nat.le_div_iff_mul_le (by omega)).mpr h1
    unfold ceilDiv at h
    omega
  · intro h
    subst h
    exact ceilDiv_zero_left b

lemma ceilDiv_succ_form (a b : Nat) (hb : 1 ≤ b) (ha : 1 ≤ a) :
    ceilDiv a b = (a - 1) / b + 1 := by
  unfold ceilDiv
  have h1 : a + b - 1 = (a - 1) + b := by omega
  rw [h1, Nat.add_div_right _ (by omega)]

lemma ceilDiv_step (a b p : Nat) (hb : 1 ≤ b) (h : ceilDiv a b = p + 1) :
    ceilDiv (a - b) b = p := by
  have ha : 1 ≤ a := by
    by_contra h0
    have ha0 : a = 0 := by omega
    subst ha0
    rw [ceilDiv_zero_left] at h
    omega
  by_cases hab : a ≤ b
  · have h1 : a - b = 0 := by omega
    rw [h1, ceilDiv_zero_left]
    have h2 := ceilDiv_succ_form a b hb ha
    have h3 : (a - 1) / b = 0 := Nat.div_eq_of_lt (by omega)
    omega
  · have h2 := ceilDiv_succ_form a b hb ha
    have h4 := ceilDiv_succ_form (a - b) b hb (by omega)
    have h5 : a - 1 = (a - b - 1) + b := by omega
    rw [h5, Nat.add_div_right _ (by omega)] at h2
    omega

lemma ceilDiv_ite (a b : Nat) (hb : 1 ≤ b) :
    ceilDiv a b = if a % b = 0 then a / b else a / b + 1 := by
  rcases Nat.eq_zero_or_pos a with ha | ha
  · subst ha
    simp [ceilDiv_zero_left]
  · rw [ceilDiv_succ_form a b hb ha]
    have hdm := Nat.div_add_mod a b
    by_cases hr : a % b = 0
    · rw [if_pos hr]
      have hq : 1 ≤ a / b := by
        rcases Nat.eq_zero_or_pos (a / b) with h0 | h0
        · rw [h0, Nat.mul_zero, Nat.zero_add] at hdm
          omega
        · exact h0
      obtain ⟨q', hq'⟩ : ∃ q', a / b = q' + 1 := ⟨a / b - 1, by omega⟩
      have hmul : b * (q' + 1) = b * q' + b := Nat.mul_succ b q'
      have h5 : a - 1 = (b - 1) + b * q' := by
        rw [hq'] at hdm
        omega
      rw [h5, Nat.add_mul_div_left _ _ (show 0 < b by omega),
        Nat.div_eq_of_lt (show b - 1 < b by omega)]
      omega
    · rw [if_neg hr]
      have hmlt : a % b < b := Nat.mod_lt a (by omega)
      have h5 : a - 1 = (a % b - 1) + b * (a / b) := by omega
      rw [h5, Nat.add_mul_div_left _ _ (show 0 < b by omega),
        Nat.div_eq_of_lt (show a % b - 1 < b by omega)]
      omega

/-! ## Slice lemmas -/

lemma slice_length (S : Nat) (data : Bytes) (i : Nat) :
    (slice S data i).length = min S (data.length - i * S) := by
  simp [slice]

lemma slice_succ (S : Nat) (data : Bytes) (i : Nat) :
    slice S data (i + 1) = slice S (data.drop S) i := by
  unfold slice
  rw [List.drop_drop]
  congr 2
  ring

lemma slice_full (S : Nat) (data : Bytes) (i : Nat) (hS : 1 ≤ S)
    (h : i + 1 < ceilDiv data.length S) : (slice S data i).length = S := by
  rw [slice_length]
  have hite := ceilDiv_ite data.length S hS
  have h2 : (data.length / S) * S ≤ data.length := Nat.div_mul_le_self data.length S
  by_cases hr : data.length % S = 0
  · rw [if_pos hr] at hite
    have h1 : (i + 2) * S ≤ (data.length / S) * S := Nat.mul_le_mul_right S (by omega)
    have h3 : (i + 2) * S = i * S + 2 * S := by ring
    omega
  · rw [if_neg hr] at hite
    have h1 : (i + 1) * S ≤ (data.length / S) * S := Nat.mul_le_mul_right S (by omega)
    have h3 : (i + 1) * S = i * S + S := by ring
    omega

lemma slice_last (S : Nat) (data : Bytes) (hS : 1 ≤ S) (hp : ceilDiv data.length S ≠ 0) :
    (slice S data (ceilDiv data.length S - 1)).length =
      if data.length % S = 0 then S else data.length % S := by
  rw [slice_length]
  have hite := ceilDiv_ite data.length S hS
  have hdm := Nat.div_add_mod data.length S
  have hmlt : data.length % S < S := Nat.mod_lt data.length (by omega)
  by_cases hr : data.length % S = 0
  · rw [if_pos hr] at hite ⊢
    rw [hite] at hp ⊢
    have hq : 1 ≤ data.length / S := by omega
    obtain ⟨q', hq'⟩ : ∃ q', data.length / S = q' + 1 := ⟨data.length / S - 1, by omega⟩
    rw [hq'] at hdm
    have hmul : S * (q' + 1) = S * q' + S := Nat.mul_succ S q'
    have hcomm : (q' + 1 - 1) * S = S * q' := by
      simp [Nat.mul_comm]
    rw [hq', hcomm]
    omega
  · rw [if_neg hr] at hite ⊢
    rw [hite]
    have hsimp : data.length / S + 1 - 1 = data.length / S := by omega
    have hcomm : (data.length / S) * S = S * (data.length / S) := Nat.mul_comm _ _
    rw [hsimp]
    omega

lemma flatten_slices (S : Nat) (hS : 1 ≤ S) :
    ∀ (p : Nat) (data : Bytes), p = ceilDiv data.length S →
      (List.map (slice S data) (List.range p)).flatten = data := by
  intro p
  induction p with
  | zero =>
    intro data h
    have h0 : data.length = 0 := (ceilDiv_eq_zero_iff data.length S hS).mp h.symm
    rw [List.length_eq_zero] at h0
    subst h0
    rfl
  | succ q ih =>
    intro data h
    rw [List.range_succ_eq_map]
    simp only [List.map_cons, List.map_map, List.flatten_cons]
    have hstep : q = ceilDiv (data.drop S).length S := by
      rw [List.length_drop]
      exact (ceilDiv_step data.length S q hS h.symm).symm
    have hmap : List.map (slice S data ∘ Nat.succ) (List.range q) =
        List.map (slice S (data.drop S)) (List.range q) := by
      apply List.map_congr_left
      intro i _
      exact slice_succ S data i
    rw [hmap, ih (data.drop S) hstep]
    have h0 : slice S data 0 = data.take S := by
      simp [slice]
    rw [h0]
    exact List.take_append_drop S data

/-! ## Chunk-writing loop lemmas -/

lemma writeChunks_read_of_not_mem (S : Nat) (f : Name) (data : Bytes) :
    ∀ (idxs : List Nat) (d : Dir) (n : Name), (∀ i ∈ idxs, chunkName f i ≠ n) →
      readFile (writeChunks S f data idxs d) n = readFile d n := by
  intro idxs
  induction idxs with
  | nil => intro d n _; rfl
  | cons i rest ih =>
    intro d n h
    simp only [writeChunks]
    rw [ih _ n (fun j hj => h j (by simp [hj]))]
    exact readFile_writeFile_ne d (chunkName f i) n _ (Ne.symm (h i (by simp)))

lemma writeChunks_read_mem (S : Nat) (f : Name) (data : Bytes) :
    ∀ (idxs : List Nat) (d : Dir) (i : Nat), idxs.Nodup → i ∈ idxs →
      readFile (writeChunks S f data idxs d) (chunkName f i) = some (slice S data i) := by
  intro idxs
  induction idxs with
  | nil => intro d i _ hmem; simp at hmem
  | cons a rest ih =>
    intro d i hnd hmem
    simp only [writeChunks]
    rcases List.mem_cons.mp hmem with h1 | h1
    · subst h1
      have hnotin : ∀ j ∈ rest, chunkName f j ≠ chunkName f i := by
        intro j hj he
        have hji := chunkName_inj f he
        subst hji
        exact (List.nodup_cons.mp hnd).1 hj
      rw [writeChunks_read_of_not_mem S f data rest _ _ hnotin]
      exact readFile_writeFile_self d _ _
    · exact ih _ i (List.nodup_cons.mp hnd).2 h1

lemma writeChunks_listing (S : Nat) (f : Name) (data : Bytes) :
    ∀ (idxs : List Nat) (d : Dir), idxs.Nodup →
      (∀ i ∈ idxs, chunkName f i ∉ listing d) →
      listing (writeChunks S f data idxs d) = listing d ++ idxs.map (chunkName f) := by
  intro idxs
  induction idxs with
  | nil => intro d _ _; simp [writeChunks]
  | cons a rest ih =>
    intro d hnd hfresh
    simp only [writeChunks]
    have hA : writeFile d (chunkName f a) (slice S data a)
        = d ++ [(chunkName f a, slice S data a)] :=
      writeFile_of_not_mem d _ _ (hfresh a (by simp))
    have hfresh2 : ∀ j ∈ rest, chunkName f j ∉ listing (d ++ [(chunkName f a, slice S data a)]) := by
      intro j hj
      have hne : chunkName f j ≠ chunkName f a := by
        intro he
        have hja := chunkName_inj f he
        subst hja
        exact (List.nodup_cons.mp hnd).1 hj
      intro hmem
      unfold listing at hmem
      rw [List.map_append] at hmem
      rcases List.mem_append.mp hmem with h2 | h2
      · exact hfresh j (by simp [hj]) h2
      · simp at h2
        exact hne h2
    rw [hA, ih _ (List.nodup_cons.mp hnd).2 hfresh2]
    unfold listing
    simp

/-! ## Hexadecimal rendering lemmas -/

lemma hexChar_isLowerHex (n : Nat) (h : n < 16) : isLowerHex (hexChar n) = true := by
  unfold hexChar isLowerHex
  split <;> simp <;> omega

lemma hexEncode_all_isLowerHex (bs : Bytes) : ∀ c ∈ hexEncode bs, isLowerHex c = true := by
  intro c hc
  unfold hexEncode at hc
  rw [List.mem_flatten] at hc
  obtain ⟨l, hl, hcl⟩ := hc
  rw [List.mem_map] at hl
  obtain ⟨b, _, rfl⟩ := hl
  simp at hcl
  rcases hcl with h | h <;> subst h <;> exact hexChar_isLowerHex _ (by omega)

lemma isLowerHex_not_space (c : Nat) (h : isLowerHex c = true) : isSpace c = false := by
  unfold isLowerHex at h
  unfold isSpace
  simp at h ⊢
  omega

/-! ## `strip` lemmas -/

lemma dropWhile_append_of_all (p : Nat → Bool) (w t : List Nat)
    (h : ∀ x ∈ w, p x = true) : (w ++ t).dropWhile p = t.dropWhile p := by
  induction w with
  | nil => rfl
  | cons a w ih =>
    rw [List.cons_append, List.dropWhile_cons_of_pos (h a (by simp))]
    exact ih (fun x hx => h x (by simp [hx]))

lemma dropWhile_eq_nil_of_all (p : Nat → Bool) (w : List Nat)
    (h : ∀ x ∈ w, p x = true) : w.dropWhile p = [] := by
  have h2 := dropWhile_append_of_all p w [] h
  simpa using h2

lemma dropWhile_eq_self_of_all_neg (p : Nat → Bool) (l : List Nat)
    (h : ∀ x ∈ l, p x = false) : l.dropWhile p = l := by
  cases l with
  | nil => rfl
  | cons a t => rw [List.dropWhile_cons_of_neg (by simp [h a (by simp)])]

lemma pystrip_sandwich (w1 m w2 : List Nat)
    (hw1 : ∀ x ∈ w1, isSpace x = true) (hw2 : ∀ x ∈ w2, isSpace x = true)
    (hm : ∀ x ∈ m, isSpace x = false) : pystrip (w1 ++ m ++ w2) = m := by
  unfold pystrip
  rw [List.append_assoc, dropWhile_append_of_all isSpace w1 _ hw1]
  cases m with
  | nil =>
    rw [List.nil_append, dropWhile_eq_nil_of_all isSpace w2 hw2]
    rfl
  | cons c cs =>
    rw [List.cons_append, List.dropWhile_cons_of_neg (by simp [hm c (by simp)])]
    rw [List.reverse_cons, List.reverse_append]
    rw [List.append_assoc]
    rw [dropWhile_append_of_all isSpace w2.reverse _
      (fun x hx => hw2 x (List.mem_reverse.mp hx))]
    rw [dropWhile_eq_self_of_all_neg isSpace _ (by
      intro x hx
      rcases List.mem_append.mp hx with h1 | h1
      · exact hm _ (by simp [List.mem_reverse.mp h1])
      · simp at h1
        subst h1
        exact hm _ (by simp))]
    rw [List.reverse_append, List.reverse_reverse]
    rfl

/-! ## Characterization of the split output directory -/

lemma split_file_fst (core : Bytes → Bytes) (d : Dir) (f : Name) (data : Bytes) (mb : Nat) :
    (split_file core d f data mb).1 =
      writeFile (writeChunks (mb * (1 <<< 20)) f data
          (List.range (ceilDiv data.length (mb * (1 <<< 20)))) d)
        (sidecarName f) (sha256sum core data) := rfl

lemma split_file_snd (core : Bytes → Bytes) (d : Dir) (f : Name) (data : Bytes) (mb : Nat) :
    (split_file core d f data mb).2 =
      (List.range (ceilDiv data.length (mb * (1 <<< 20)))).map (chunkName f) := rfl

lemma insertionSort_eq_self_of_sorted (l : List Name) (hs : List.Sorted nameLe l) :
    List.insertionSort nameLe l = l :=
  List.eq_of_perm_of_sorted (List.perm_insertionSort nameLe l)
    (List.sorted_insertionSort nameLe l) hs

lemma sorted_chunkNames (f : Name) (parts : Nat) (hparts : parts ≤ 1000) :
    List.Sorted nameLe ((List.range parts).map (chunkName f)) := by
  rw [List.Sorted, List.pairwise_iff_getElem]
  intro i j hi hj hij
  simp only [List.getElem_map, List.getElem_range]
  simp only [List.length_map, List.length_range] at hi hj
  exact (nameLe_chunkName_iff f i j (by omega) (by omega)).mpr (by omega)

lemma readFile_split_chunk (core : Bytes → Bytes) (d : Dir) (f : Name) (data : Bytes)
    (mb : Nat) (i : Nat) (hi : i < ceilDiv data.length (mb * (1 <<< 20))) :
    readFile (split_file core d f data mb).1 (chunkName f i) =
      some (slice (mb * (1 <<< 20)) data i) := by
  rw [split_file_fst]
  rw [readFile_writeFile_ne _ _ _ _ (Ne.symm (sidecarName_ne_chunkName f i))]
  exact writeChunks_read_mem _ f data _ d i (List.nodup_range _) (List.mem_range.mpr hi)

lemma discoverNames_split (core : Bytes → Bytes) (d : Dir) (f : Name) (data : Bytes) (mb : Nat)
    (hparts : ceilDiv data.length (mb * (1 <<< 20)) ≤ 1000)
    (hclean : ∀ n ∈ listing d, isChunkName f n = false) :
    discoverNames f (split_file core d f data mb).1 =
      (List.range (ceilDiv data.length (mb * (1 <<< 20)))).map (chunkName f) := by
  have hfresh : ∀ i ∈ List.range (ceilDiv data.length (mb * (1 <<< 20))),
      chunkName f i ∉ listing d := by
    intro i hi hmem
    have h1 := hclean _ hmem
    rw [isChunkName_chunkName] at h1
    have hi' := List.mem_range.mp hi
    simp at h1
    omega
  have hw := writeChunks_listing (mb * (1 <<< 20)) f data
    (List.range (ceilDiv data.length (mb * (1 <<< 20)))) d (List.nodup_range _) hfresh
  unfold discoverNames
  rw [split_file_fst, listing_writeFile, hw]
  have hfil : (((listing d ++ (List.range (ceilDiv data.length (mb * (1 <<< 20)))).map
      (chunkName f)).filter (fun x => !(x == sidecarName f)) ++ [sidecarName f]).filter
      (fun n => isChunkName f n)) =
      (List.range (ceilDiv data.length (mb * (1 <<< 20)))).map (chunkName f) := by
    rw [List.filter_append, List.filter_filter]
    have h1 : ((listing d ++ (List.range (ceilDiv data.length (mb * (1 <<< 20)))).map
        (chunkName f)).filter (fun a => isChunkName f a && !(a == sidecarName f))) =
        ((listing d ++ (List.range (ceilDiv data.length (mb * (1 <<< 20)))).map
        (chunkName f)).filter (fun a => isChunkName f a)) := by
      apply List.filter_congr
      intro x _
      by_cases hx : isChunkName f x = true
      · have hxs : x ≠ sidecarName f := by
          intro he
          rw [he, isChunkName_sidecarName] at hx
          exact Bool.false_ne_true hx
        simp [hx, hxs]
      · simp only [Bool.not_eq_true] at hx
        simp [hx]
    rw [h1, List.filter_append]
    have h2 : (listing d).filter (fun a => isChunkName f a) = [] := by
      rw [List.filter_eq_nil_iff]
      intro a ha
      simp [hclean a ha]
    have h3 : (((List.range (ceilDiv data.length (mb * (1 <<< 20)))).map
        (chunkName f)).filter (fun a => isChunkName f a)) =
        (List.range (ceilDiv data.length (mb * (1 <<< 20)))).map (chunkName f) := by
      apply List.filter_eq_self.mpr
      intro a ha
      rw [List.mem_map] at ha
      obtain ⟨i, hi, rfl⟩ := ha
      rw [isChunkName_chunkName]
      have hi' := List.mem_range.mp hi
      simp
      omega
    have h4 : ([sidecarName f].filter (fun n => isChunkName f n)) = [] := by
      simp [isChunkName_sidecarName]
    rw [h2, h3, h4, List.nil_append, List.append_nil]
  rw [hfil]
  exact insertionSort_eq_self_of_sorted _ (sorted_chunkNames f _ hparts)

lemma mergeOut_split (core : Bytes → Bytes) (d : Dir) (f : Name) (data : Bytes) (mb : Nat)
    (hmb : 1 ≤ mb)
    (hparts : ceilDiv data.length (mb * (1 <<< 20)) ≤ 1000)
    (hclean : ∀ n ∈ listing d, isChunkName f n = false) :
    mergeOut f (split_file core d f data mb).1 = data := by
  unfold mergeOut
  rw [discoverNames_split core d f data mb hparts hclean, List.map_map]
  have hS : 1 ≤ mb * (1 <<< 20) := by
    have h20 : (1 : Nat) ≤ 1 <<< 20 := by decide
    calc 1 = 1 * 1 := by omega
    _ ≤ mb * (1 <<< 20) := Nat.mul_le_mul hmb h20
  have hmap : (List.range (ceilDiv data.length (mb * (1 <<< 20)))).map
      ((fun n => (readFile (split_file core d f data mb).1 n).getD []) ∘ chunkName f) =
      (List.range (ceilDiv data.length (mb * (1 <<< 20)))).map
        (slice (mb * (1 <<< 20)) data) := by
    apply List.map_congr_left
    intro i hi
    simp only [Function.comp_apply]
    rw [readFile_split_chunk core d f data mb i (List.mem_range.mp hi)]
    rfl
  rw [hmap]
  exact flatten_slices (mb * (1 <<< 20)) hS _ data rfl

/-! ## Merge control-flow lemmas -/

lemma merge_files_ok_of_ne_nil (core : Bytes → Bytes) (d : Dir) (pre : Name)
    (o : Option Name) (h : discoverNames pre d ≠ []) :
    merge_files core (some d) pre o =
      .ok (writeFile d (o.getD pre) (mergeOut pre d), mergeOut pre d,
        verdictOf core pre (writeFile d (o.getD pre) (mergeOut pre d)) (mergeOut pre d)) := by
  have h2 : (discoverNames pre d).isEmpty = false := by simp [h]
  simp only [merge_files, h2]
  rfl

lemma discoverNames_eq_nil_of_clean (pre : Name) (d : Dir)
    (h : ∀ n ∈ listing d, isChunkName pre n = false) : discoverNames pre d = [] := by
  unfold discoverNames
  have h2 : (listing d).filter (fun n => isChunkName pre n) = [] := by
    rw [List.filter_eq_nil_iff]
    intro a ha
    simp [h a ha]
  rw [h2]
  rfl

lemma merge_files_notFound_of_clean (core : Bytes → Bytes) (d : Dir) (pre : Name)
    (o : Option Name) (h : ∀ n ∈ listing d, isChunkName pre n = false) :
    merge_files core (some d) pre o = .error .notFound := by
  simp only [merge_files, discoverNames_eq_nil_of_clean pre d h]
  rfl

lemma verdictOf_some (core : Bytes → Bytes) (pre : Name) (d1 : Dir) (out : Bytes) (c : Bytes)
    (h : readFile d1 (sidecarName pre) = some c) :
    verdictOf core pre d1 out = some (sha256sum core out == pystrip c) := by
  unfold verdictOf
  rw [h]

lemma verdictOf_none (core : Bytes → Bytes) (pre : Name) (d1 : Dir) (out : Bytes)
    (h : readFile d1 (sidecarName pre) = none) :
    verdictOf core pre d1 out = none := by
  unfold verdictOf
  rw [h]

/-! ## Read-size lemmas -/

lemma ceilDiv_self (n : Nat) (h : 1 ≤ n) : ceilDiv n n = 1 := by
  rw [ceilDiv_succ_form n n h h, Nat.div_eq_of_lt (by omega)]

lemma splitReadSizes_self (S : Nat) (hS : 1 ≤ S) : S ∈ splitReadSizes S S := by
  unfold splitReadSizes
  rw [ceilDiv_self S hS]
  simp

lemma sha256ReadSizesAux_le (bufSize : Nat) :
    ∀ fuel total s, s ∈ sha256ReadSizesAux bufSize fuel total → s ≤ bufSize := by
  intro fuel
  induction fuel with
  | zero => intro total s h; simp [sha256ReadSizesAux] at h
  | succ n ih =>
    intro total s h
    unfold sha256ReadSizesAux at h
    by_cases hc : total = 0 ∨ bufSize = 0
    · rw [if_pos hc] at h
      simp at h
    · rw [if_neg hc] at h
      rcases List.mem_cons.mp h with h1 | h1
      · subst h1
        exact Nat.min_le_left _ _
      · exact ih _ s h1

/-! ## Claim theorems -/

/-- **C1** (corrected), counterexample to the claim as stated: the round trip
does **not** hold for *every* input file.  For the empty file, `split_file`
creates `ceil(0/S) = 0` chunk files (only the sidecar), so the subsequent
merge discovers no chunks and fails with `FileNotFoundError` instead of
producing a file byte-identical to the (empty) input. -/
theorem C1_round_trip_counterexample :
    merge_files (fun _ => []) (some (split_file (fun _ => []) [] [102] [] 1).1) [102] none
      = .error .notFound := rfl

/-- **C1** (amended): for every *nonempty* input file whose chunk count
`ceil(T/S)` is at most 1000, split with a positive `chunk_size_mb` into an
output directory holding no file whose name matches the chunk pattern, merge
on the produced chunk set succeeds and its output file content is byte-for-byte
identical to the original input (concatenation of the chunks in ascending
index order equals the original bytes). -/
theorem C1_round_trip (core : Bytes → Bytes) (d : Dir) (f : Name) (data : Bytes) (mb : Nat)
    (hmb : 1 ≤ mb) (hne : data ≠ [])
    (hparts : ceilDiv data.length (mb * (1 <<< 20)) ≤ 1000)
    (hclean : ∀ n ∈ listing d, isChunkName f n = false) :
    ∃ d1 v, merge_files core (some (split_file core d f data mb).1) f none
      = .ok (d1, data, v) := by
  have hS : 1 ≤ mb * (1 <<< 20) := by
    have h20 : (1 : Nat) ≤ 1 <<< 20 := by decide
    calc (1 : Nat) = 1 * 1 := by omega
    _ ≤ mb * (1 <<< 20) := Nat.mul_le_mul hmb h20
  have hpne : ceilDiv data.length (mb * (1 <<< 20)) ≠ 0 := by
    intro h0
    have h1 := (ceilDiv_eq_zero_iff data.length (mb * (1 <<< 20)) hS).mp h0
    exact hne (List.length_eq_zero.mp h1)
  have hdisc := discoverNames_split core d f data mb hparts hclean
  have hne2 : discoverNames f (split_file core d f data mb).1 ≠ [] := by
    rw [hdisc]
    intro h0
    have hlen := congrArg List.length h0
    simp at hlen
    exact hpne hlen
  refine ⟨writeFile (split_file core d f data mb).1 f data,
    verdictOf core f (writeFile (split_file core d f data mb).1 f data) data, ?_⟩
  rw [merge_files_ok_of_ne_nil core _ f none hne2,
    mergeOut_split core d f data mb hmb hparts hclean]
  rfl

/-- **C1** witness: a concrete round trip, with input `[1, 2, 3]`, chunk size
1 MiB and an empty output directory. -/
theorem C1_round_trip_witness :
    ((1 : Nat) ≤ 1 ∧ ([1, 2, 3] : Bytes) ≠ []
      ∧ ceilDiv ([1, 2, 3] : Bytes).length (1 * (1 <<< 20)) ≤ 1000
      ∧ (∀ n ∈ listing ([] : Dir), isChunkName [102] n = false))
    ∧ ∃ d1 v,
        merge_files (fun _ => [0]) (some (split_file (fun _ => [0]) [] [102] [1, 2, 3] 1).1)
          [102] none = .ok (d1, [1, 2, 3], v) :=
  ⟨⟨le_refl 1, by decide, by decide, by simp [listing]⟩,
    C1_round_trip (fun _ => [0]) [] [102] [1, 2, 3] 1 (le_refl 1) (by decide) (by decide)
      (by simp [listing])⟩

/-- **C2** (confirmed): splitting a `T`-byte file with chunk size
`S = chunk_size_mb * 2^20` produces exactly `ceil(T/S)` chunk files, with
pairwise distinct names in ascending index order; the `i`-th chunk file holds
exactly the contiguous slice `data[i*S ..< i*S+S]`; every chunk but the last
holds exactly `S` bytes, the last holds `T mod S` bytes (`S` when `S` divides
`T`); and the concatenation of the slices in index order is the input, so no
byte is duplicated or skipped. -/
theorem C2_chunk_layout (core : Bytes → Bytes) (d : Dir) (f : Name) (data : Bytes) (mb : Nat)
    (hmb : 1 ≤ mb) :
    (split_file core d f data mb).2
        = (List.range (ceilDiv data.length (mb * (1 <<< 20)))).map (chunkName f)
    ∧ (split_file core d f data mb).2.length = ceilDiv data.length (mb * (1 <<< 20))
    ∧ (split_file core d f data mb).2.Nodup
    ∧ (∀ i, i < ceilDiv data.length (mb * (1 <<< 20)) →
        readFile (split_file core d f data mb).1 (chunkName f i)
          = some (slice (mb * (1 <<< 20)) data i))
    ∧ (∀ i, i + 1 < ceilDiv data.length (mb * (1 <<< 20)) →
        (slice (mb * (1 <<< 20)) data i).length = mb * (1 <<< 20))
    ∧ (ceilDiv data.length (mb * (1 <<< 20)) ≠ 0 →
        (slice (mb * (1 <<< 20)) data (ceilDiv data.length (mb * (1 <<< 20)) - 1)).length
          = if data.length % (mb * (1 <<< 20)) = 0 then mb * (1 <<< 20)
            else data.length % (mb * (1 <<< 20)))
    ∧ (List.map (slice (mb * (1 <<< 20)) data)
        (List.range (ceilDiv data.length (mb * (1 <<< 20))))).flatten = data := by
  have hS : 1 ≤ mb * (1 <<< 20) := by
    have h20 : (1 : Nat) ≤ 1 <<< 20 := by decide
    calc (1 : Nat) = 1 * 1 := by omega
    _ ≤ mb * (1 <<< 20) := Nat.mul_le_mul hmb h20
  refine ⟨split_file_snd core d f data mb, ?_, ?_, ?_, ?_, ?_, ?_⟩
  · rw [split_file_snd]
    simp
  · rw [split_file_snd]
    exact List.Nodup.map (chunkName_inj f) (List.nodup_range _)
  · intro i hi
    exact readFile_split_chunk core d f data mb i hi
  · intro i hi
    exact slice_full _ data i hS hi
  · intro hp
    exact slice_last _ data hS hp
  · exact flatten_slices _ hS _ data rfl

/-- **C2** witness: a concrete split of a 2-byte file with a 1 MiB chunk
size (one chunk, of 2 bytes). -/
theorem C2_chunk_layout_witness :
    (1 : Nat) ≤ 1
    ∧ ((split_file (fun _ => []) [] [102] [1, 2] 1).2
        = (List.range (ceilDiv ([1, 2] : Bytes).length (1 * (1 <<< 20)))).map (chunkName [102])
    ∧ (split_file (fun _ => []) [] [102] [1, 2] 1).2.length
        = ceilDiv ([1, 2] : Bytes).length (1 * (1 <<< 20))
    ∧ (split_file (fun _ => []) [] [102] [1, 2] 1).2.Nodup
    ∧ (∀ i, i < ceilDiv ([1, 2] : Bytes).length (1 * (1 <<< 20)) →
        readFile (split_file (fun _ => []) [] [102] [1, 2] 1).1 (chunkName [102] i)
          = some (slice (1 * (1 <<< 20)) [1, 2] i))
    ∧ (∀ i, i + 1 < ceilDiv ([1, 2] : Bytes).length (1 * (1 <<< 20)) →
        (slice (1 * (1 <<< 20)) [1, 2] i).length = 1 * (1 <<< 20))
    ∧ (ceilDiv ([1, 2] : Bytes).length (1 * (1 <<< 20)) ≠ 0 →
        (slice (1 * (1 <<< 20)) [1, 2] (ceilDiv ([1, 2] : Bytes).length (1 * (1 <<< 20)) - 1)).length
          = if ([1, 2] : Bytes).length % (1 * (1 <<< 20)) = 0 then 1 * (1 <<< 20)
            else ([1, 2] : Bytes).length % (1 * (1 <<< 20)))
    ∧ (List.map (slice (1 * (1 <<< 20)) [1, 2])
        (List.range (ceilDiv ([1, 2] : Bytes).length (1 * (1 <<< 20))))).flatten = [1, 2]) :=
  ⟨le_refl 1, C2_chunk_layout (fun _ => []) [] [102] [1, 2] 1 (le_refl 1)⟩

/-- **C3** (corrected), counterexample to the claim as stated: the comparison
is **not** case-insensitive.  With digest core `fun _ => [255]` the correct
digest of the merged output `[5]` is `"ff"` (code points `[102, 102]`), the
sidecar stores its uppercase form `"FF"` (`[70, 70]`), and `merge_files`
reports a mismatch (`some false`) rather than the match the claim predicts. -/
theorem C3_digest_comparison_counterexample :
    merge_files (fun _ => [255])
        (some [([102, 46, 48, 48, 48], [5]), ([102, 46, 115, 104, 97, 50, 53, 54], [70, 70])])
        [102] none
      = .ok ([([102, 46, 48, 48, 48], [5]), ([102, 46, 115, 104, 97, 50, 53, 54], [70, 70]),
          ([102], [5])], [5], some false)
    ∧ sha256sum (fun _ => [255]) [5] = [102, 102] := ⟨rfl, rfl⟩

/-- **C3** (amended): when the sidecar is present at merge time, `merge_files`
compares the freshly computed digest of the output against the sidecar content
trimmed of surrounding whitespace using exact, case-**sensitive** string
equality: a sidecar holding the lowercase digest surrounded by whitespace is
reported as a match, and any sidecar whose trimmed content differs from the
lowercase digest string — including the correct digest written in uppercase —
is reported as a mismatch. -/
theorem C3_digest_comparison (core : Bytes → Bytes) (d : Dir) (pre : Name) (o : Option Name)
    (hne : discoverNames pre d ≠ []) :
    (∀ c w1 w2,
      readFile (writeFile d (o.getD pre) (mergeOut pre d)) (sidecarName pre) = some c →
      c = w1 ++ sha256sum core (mergeOut pre d) ++ w2 →
      (∀ x ∈ w1, isSpace x = true) → (∀ x ∈ w2, isSpace x = true) →
      merge_files core (some d) pre o
        = .ok (writeFile d (o.getD pre) (mergeOut pre d), mergeOut pre d, some true))
    ∧ (∀ c,
      readFile (writeFile d (o.getD pre) (mergeOut pre d)) (sidecarName pre) = some c →
      pystrip c ≠ sha256sum core (mergeOut pre d) →
      merge_files core (some d) pre o
        = .ok (writeFile d (o.getD pre) (mergeOut pre d), mergeOut pre d, some false)) := by
  constructor
  · intro c w1 w2 hread hc hw1 hw2
    rw [merge_files_ok_of_ne_nil core d pre o hne,
      verdictOf_some core pre _ _ c hread]
    have hstrip : pystrip c = sha256sum core (mergeOut pre d) := by
      rw [hc]
      exact pystrip_sandwich w1 _ w2 hw1 hw2
        (fun x hx => isLowerHex_not_space x (hexEncode_all_isLowerHex _ x hx))
    rw [hstrip, beq_self_eq_true]
  · intro c hread hneq
    rw [merge_files_ok_of_ne_nil core d pre o hne,
      verdictOf_some core pre _ _ c hread,
      beq_eq_false_iff_ne.mpr (fun he => hneq he.symm)]

/-- **C3** witness: a sidecar holding `" 00 "` (the lowercase digest `"00"`
surrounded by spaces) is reported as a match for the chunk set `{f.000 ↦ [7]}`
under digest core `fun _ => [0]`. -/
theorem C3_digest_comparison_witness :
    (discoverNames [102] [([102, 46, 48, 48, 48], [7]),
        ([102, 46, 115, 104, 97, 50, 53, 54], [32, 48, 48, 32])] ≠ [])
    ∧ merge_files (fun _ => [0])
        (some [([102, 46, 48, 48, 48], [7]),
          ([102, 46, 115, 104, 97, 50, 53, 54], [32, 48, 48, 32])]) [102] none
      = .ok ([([102, 46, 48, 48, 48], [7]),
          ([102, 46, 115, 104, 97, 50, 53, 54], [32, 48, 48, 32]), ([102], [7])],
          [7], some true) := by
  have hne : discoverNames [102] [([102, 46, 48, 48, 48], [7]),
      ([102, 46, 115, 104, 97, 50, 53, 54], [32, 48, 48, 32])] ≠ [] := by decide
  refine ⟨hne, ?_⟩
  exact (C3_digest_comparison (fun _ => [0]) _ [102] none hne).1
    [32, 48, 48, 32] [32] [32] rfl rfl (by decide) (by decide)

/-- **C4** (confirmed): merge fails with the not-found error both when the
prefix's parent directory does not exist and when the parent directory exists
but contains no file matching the chunk discovery pattern; in either case the
error is raised before any write, so no directory state is produced and the
output file is neither created nor truncated. -/
theorem C4_merge_not_found (core : Bytes → Bytes) (pre : Name) (o : Option Name) :
    merge_files core none pre o = .error .notFound
    ∧ ∀ d : Dir, (∀ n ∈ listing d, isChunkName pre n = false) →
        merge_files core (some d) pre o = .error .notFound :=
  ⟨rfl, fun d h => merge_files_notFound_of_clean core d pre o h⟩

/-- **C4** witness: a missing parent directory and a directory holding one
non-matching file both yield the not-found error. -/
theorem C4_merge_not_found_witness :
    (∀ n ∈ listing [([97], ([1] : Bytes))], isChunkName [102] n = false)
    ∧ merge_files (fun _ => []) none [102] none = .error .notFound
    ∧ merge_files (fun _ => []) (some [([97], [1])]) [102] none = .error .notFound :=
  ⟨by decide, (C4_merge_not_found (fun _ => []) [102] none).1,
    (C4_merge_not_found (fun _ => []) [102] none).2 [([97], [1])] (by decide)⟩

/-- **C5** (confirmed): after the chunks are written, `split_file` stores in
the output directory a file named `<input_file_name>.sha256` whose content is
exactly the digest string of the *original* input data (not of the chunks),
and that digest string is lowercase hexadecimal throughout. -/
theorem C5_sidecar_digest (core : Bytes → Bytes) (d : Dir) (f : Name) (data : Bytes) (mb : Nat) :
    readFile (split_file core d f data mb).1 (sidecarName f) = some (sha256sum core data)
    ∧ sha256sum core data = hexEncode (core data)
    ∧ ∀ c ∈ sha256sum core data, isLowerHex c = true := by
  refine ⟨?_, rfl, hexEncode_all_isLowerHex _⟩
  rw [split_file_fst]
  exact readFile_writeFile_self _ _ _

/-- **C5** witness: with digest core `fun _ => [171]` the sidecar of a split
holds the digest `"ab"` of the original data, and `97` (`'a'`) is one of its
lowercase-hex code points. -/
theorem C5_sidecar_digest_witness :
    readFile (split_file (fun _ => [171]) [] [102] [9] 1).1 (sidecarName [102])
        = some (sha256sum (fun _ => [171]) [9])
    ∧ ((97 : Nat) ∈ sha256sum (fun _ => [171]) [9] ∧ isLowerHex 97 = true) :=
  ⟨(C5_sidecar_digest (fun _ => [171]) [] [102] [9] 1).1,
    by decide, (C5_sidecar_digest (fun _ => [171]) [] [102] [9] 1).2.2 97 (by decide)⟩

/-- **C6** (confirmed): chunk discovery is independent of the order in which
the filesystem listing returns the directory entries — permuting the directory
leaves the sorted discovery result unchanged — and for any duplicate-free set
of chunk files named `<pre>.<3-digit zero-padded index>`, the discovered list
is exactly those chunk names arranged in strictly ascending numeric index
order, because lexicographic order on the fixed-width names coincides with
numeric order. -/
theorem C6_discovery_order (pre : Name) :
    (∀ d d' : Dir, d.Perm d' → discoverNames pre d = discoverNames pre d')
    ∧ (∀ (idxs : List Nat) (cont : Nat → Bytes), idxs.Nodup → (∀ i ∈ idxs, i < 1000) →
        ∃ jdxs : List Nat,
          discoverNames pre (idxs.map (fun i => (chunkName pre i, cont i)))
              = jdxs.map (chunkName pre)
            ∧ jdxs.Perm idxs ∧ jdxs.Pairwise (· < ·)) := by
  constructor
  · intro d d' hperm
    have hp2 : ((listing d).filter (fun n => isChunkName pre n)).Perm
        ((listing d').filter (fun n => isChunkName pre n)) :=
      (hperm.map Prod.fst).filter _
    exact List.eq_of_perm_of_sorted
      ((List.perm_insertionSort nameLe _).trans
        (hp2.trans (List.perm_insertionSort nameLe _).symm))
      (List.sorted_insertionSort nameLe _) (List.sorted_insertionSort nameLe _)
  · intro idxs cont hnd hlt
    refine ⟨List.insertionSort (· ≤ ·) idxs, ?_, List.perm_insertionSort _ idxs, ?_⟩
    · unfold discoverNames
      have hlist : listing (idxs.map (fun i => (chunkName pre i, cont i)))
          = idxs.map (chunkName pre) := by
        unfold listing
        rw [List.map_map]
        rfl
      rw [hlist]
      have hfil : (idxs.map (chunkName pre)).filter (fun n => isChunkName pre n)
          = idxs.map (chunkName pre) := by
        apply List.filter_eq_self.mpr
        intro a ha
        rw [List.mem_map] at ha
        obtain ⟨i, hi, rfl⟩ := ha
        rw [isChunkName_chunkName]
        simp
        exact hlt i hi
      rw [hfil]
      have hperm2 : (List.insertionSort nameLe (idxs.map (chunkName pre))).Perm
          ((List.insertionSort (· ≤ ·) idxs).map (chunkName pre)) :=
        (List.perm_insertionSort nameLe _).trans
          (((List.perm_insertionSort (· ≤ ·) idxs).map (chunkName pre)).symm)
      have hs1 : List.Sorted nameLe (List.insertionSort nameLe (idxs.map (chunkName pre))) :=
        List.sorted_insertionSort nameLe _
      have hs2 : List.Sorted nameLe ((List.insertionSort (· ≤ ·) idxs).map (chunkName pre)) := by
        have hmem : ∀ j ∈ List.insertionSort (· ≤ ·) idxs, j < 1000 := fun j hj =>
          hlt j ((List.perm_insertionSort (· ≤ ·) idxs).mem_iff.mp hj)
        have hsorted : List.Pairwise (· ≤ ·) (List.insertionSort (· ≤ ·) idxs) :=
          List.sorted_insertionSort _ idxs
        rw [List.pairwise_iff_getElem] at hsorted
        rw [List.Sorted, List.pairwise_iff_getElem]
        intro i j hi hj hij
        simp only [List.length_map] at hi hj
        simp only [List.getElem_map]
        have hle := hsorted i j hi hj hij
        exact (nameLe_chunkName_iff pre _ _ (hmem _ (List.getElem_mem hi))
          (hmem _ (List.getElem_mem hj))).mpr hle
      exact List.eq_of_perm_of_sorted hperm2 hs1 hs2
    · have hnd2 : (List.insertionSort (· ≤ ·) idxs).Nodup :=
        ((List.perm_insertionSort (· ≤ ·) idxs).nodup_iff).mpr hnd
      have hsorted : List.Pairwise (· ≤ ·) (List.insertionSort (· ≤ ·) idxs) :=
        List.sorted_insertionSort _ idxs
      exact (hsorted.and hnd2).imp (fun hab => by omega)

/-- **C6** witness: two listings of the same two chunk files in opposite
orders discover the same sorted list, and the chunk set with indices `[1, 0]`
is concatenated in the strictly ascending index order `[0, 1]`. -/
theorem C6_discovery_order_witness :
    (([(chunkName [102] 1, ([1] : Bytes)), (chunkName [102] 0, [0])] : Dir).Perm
        [(chunkName [102] 0, ([0] : Bytes)), (chunkName [102] 1, [1])]
      ∧ discoverNames [102] [(chunkName [102] 1, ([1] : Bytes)), (chunkName [102] 0, [0])]
          = discoverNames [102] [(chunkName [102] 0, ([0] : Bytes)), (chunkName [102] 1, [1])])
    ∧ (([1, 0] : List Nat).Nodup ∧ (∀ i ∈ ([1, 0] : List Nat), i < 1000)
      ∧ ∃ jdxs : List Nat,
          discoverNames [102] (([1, 0] : List Nat).map
              (fun i => (chunkName [102] i, ([] : Bytes))))
            = jdxs.map (chunkName [102])
          ∧ jdxs.Perm [1, 0] ∧ jdxs.Pairwise (· < ·)) := by
  refine ⟨⟨List.Perm.swap _ _ _, (C6_discovery_order [102]).1 _ _ (List.Perm.swap _ _ _)⟩,
    by decide, by decide, (C6_discovery_order [102]).2 [1, 0] (fun _ => []) (by decide) (by decide)⟩

/-- **C7** (confirmed): a checksum mismatch is not a failure of the merge —
when the sidecar is present but its trimmed content differs from the computed
digest of the output, `merge_files` still returns successfully with the
already-written output file holding the full concatenation, only flagging the
verdict `some false`; and when the sidecar is absent, the merge returns
successfully with no verification verdict at all (`none`). -/
theorem C7_mismatch_not_failure (core : Bytes → Bytes) (d : Dir) (pre : Name) (o : Option Name)
    (hne : discoverNames pre d ≠ []) :
    (∀ c,
      readFile (writeFile d (o.getD pre) (mergeOut pre d)) (sidecarName pre) = some c →
      sha256sum core (mergeOut pre d) ≠ pystrip c →
      merge_files core (some d) pre o
        = .ok (writeFile d (o.getD pre) (mergeOut pre d), mergeOut pre d, some false))
    ∧ (readFile (writeFile d (o.getD pre) (mergeOut pre d)) (sidecarName pre) = none →
      merge_files core (some d) pre o
        = .ok (writeFile d (o.getD pre) (mergeOut pre d), mergeOut pre d, none)) := by
  constructor
  · intro c hread hneq
    rw [merge_files_ok_of_ne_nil core d pre o hne,
      verdictOf_some core pre _ _ c hread,
      beq_eq_false_iff_ne.mpr hneq]
  · intro hread
    rw [merge_files_ok_of_ne_nil core d pre o hne,
      verdictOf_none core pre _ _ hread]

/-- **C7** witness: a sidecar holding `"9"` while the digest of the output
`[1]` is `"01"` yields a successful merge with verdict `some false`; the same
chunk set without a sidecar yields a successful merge with no verdict. -/
theorem C7_mismatch_not_failure_witness :
    (discoverNames [102] [([102, 46, 48, 48, 48], ([1] : Bytes)),
        ([102, 46, 115, 104, 97, 50, 53, 54], [57])] ≠ []
      ∧ sha256sum (fun _ => [1]) (mergeOut [102] [([102, 46, 48, 48, 48], ([1] : Bytes)),
          ([102, 46, 115, 104, 97, 50, 53, 54], [57])]) ≠ pystrip [57]
      ∧ merge_files (fun _ => [1])
          (some [([102, 46, 48, 48, 48], [1]), ([102, 46, 115, 104, 97, 50, 53, 54], [57])])
          [102] none
        = .ok ([([102, 46, 48, 48, 48], [1]), ([102, 46, 115, 104, 97, 50, 53, 54], [57]),
            ([102], [1])], [1], some false))
    ∧ (discoverNames [102] [([102, 46, 48, 48, 48], ([1] : Bytes))] ≠ []
      ∧ merge_files (fun _ => [1]) (some [([102, 46, 48, 48, 48], [1])]) [102] none
        = .ok ([([102, 46, 48, 48, 48], [1]), ([102], [1])], [1], none)) := by
  have hne1 : discoverNames [102] [([102, 46, 48, 48, 48], ([1] : Bytes)),
      ([102, 46, 115, 104, 97, 50, 53, 54], [57])] ≠ [] := by decide
  have hne2 : discoverNames [102] [([102, 46, 48, 48, 48], ([1] : Bytes))] ≠ [] := by decide
  refine ⟨⟨hne1, by decide, ?_⟩, ⟨hne2, ?_⟩⟩
  · exact (C7_mismatch_not_failure (fun _ => [1]) _ [102] none hne1).1 [57] rfl (by decide)
  · exact (C7_mismatch_not_failure (fun _ => [1]) _ [102] none hne2).2 rfl

/-- **C8** (corrected), counterexample to the claim as stated: there is no
fixed bound on the sizes of the reads the three operations perform — the
splitter's per-iteration `src.read(chunk_size)` returns a whole chunk of the
caller-chosen size `chunk_size_mb * 2^20`, which exceeds any proposed bound
once `chunk_size_mb` is large enough, so memory use is not O(1). -/
theorem C8_bounded_reads_counterexample : ¬ BoundedReads := by
  rintro ⟨B, h1, h2, h3⟩
  have hS : 1 ≤ (B + 1) * (1 <<< 20) := by
    have h20 : (1 : Nat) ≤ 1 <<< 20 := by decide
    calc (1 : Nat) = 1 * 1 := by omega
    _ ≤ (B + 1) * (1 <<< 20) := Nat.mul_le_mul (by omega) h20
  have hmem : (B + 1) * (1 <<< 20)
      ∈ splitReadSizes ((B + 1) * (1 <<< 20)) ((B + 1) * (1 <<< 20)) :=
    splitReadSizes_self _ hS
  have hle := h2 (B + 1) ((B + 1) * (1 <<< 20)) ((B + 1) * (1 <<< 20)) (by omega) hmem
  have hBig : B + 1 ≤ (B + 1) * (1 <<< 20) := by
    have h20 : (1 : Nat) ≤ 1 <<< 20 := by decide
    calc B + 1 = (B + 1) * 1 := by omega
    _ ≤ (B + 1) * (1 <<< 20) := Nat.mul_le_mul (le_refl _) h20
  omega

/-- **C8** (amended): only the checksum utility reads in fixed-size buffers —
every read of `sha256sum` returns at most its 1 MiB buffer size, for files of
any length — whereas the splitter returns a whole chunk of the caller-chosen
chunk size per read and the merger reads each discovered chunk file whole, so
for both of them the data returned by a single read exceeds any fixed bound on
suitable inputs. -/
theorem C8_read_bounds :
    (∀ total s, s ∈ sha256ReadSizes (1 <<< 20) total → s ≤ 1 <<< 20)
    ∧ (∀ B, ∃ mb T s, 1 ≤ mb ∧ s ∈ splitReadSizes (mb * (1 <<< 20)) T ∧ B < s)
    ∧ (∀ B, ∃ pre d s, s ∈ mergeReadSizes pre d ∧ B < s) := by
  refine ⟨?_, ?_, ?_⟩
  · intro total s h
    exact sha256ReadSizesAux_le (1 <<< 20) total total s h
  · intro B
    have hS : 1 ≤ (B + 1) * (1 <<< 20) := by
      have h20 : (1 : Nat) ≤ 1 <<< 20 := by decide
      calc (1 : Nat) = 1 * 1 := by omega
      _ ≤ (B + 1) * (1 <<< 20) := Nat.mul_le_mul (by omega) h20
    have hBig : B + 1 ≤ (B + 1) * (1 <<< 20) := by
      have h20 : (1 : Nat) ≤ 1 <<< 20 := by decide
      calc B + 1 = (B + 1) * 1 := by omega
      _ ≤ (B + 1) * (1 <<< 20) := Nat.mul_le_mul (le_refl _) h20
    exact ⟨B + 1, (B + 1) * (1 <<< 20), (B + 1) * (1 <<< 20), by omega,
      splitReadSizes_self _ hS, by omega⟩
  · intro B
    refine ⟨[102], [([102, 46, 48, 48, 48], List.replicate (B + 1) 0)], B + 1, ?_, by omega⟩
    have hd : discoverNames [102] [([102, 46, 48, 48, 48], List.replicate (B + 1) 0)]
        = [[102, 46, 48, 48, 48]] := by
      unfold discoverNames listing
      simp only [List.map_cons, List.map_nil]
      rw [List.filter_cons_of_pos (by decide)]
      rfl
    have hread : readFile [([102, 46, 48, 48, 48], List.replicate (B + 1) 0)]
        [102, 46, 48, 48, 48] = some (List.replicate (B + 1) 0) := rfl
    unfold mergeReadSizes
    rw [hd]
    simp only [List.map_cons, List.map_nil, hread]
    simp

/-- **C8** witness: a 5-byte file is read by the checksum utility in one read
of 5 bytes, within the 1 MiB buffer bound; and for any proposed bound (here 0)
both the splitter and the merger perform a read exceeding it. -/
theorem C8_read_bounds_witness :
    ((5 : Nat) ∈ sha256ReadSizes (1 <<< 20) 5 ∧ (5 : Nat) ≤ 1 <<< 20)
    ∧ (∃ mb T s, 1 ≤ mb ∧ s ∈ splitReadSizes (mb * (1 <<< 20)) T ∧ 0 < s)
    ∧ (∃ pre d s, s ∈ mergeReadSizes pre d ∧ 0 < s) :=
  ⟨⟨by decide, C8_read_bounds.1 5 5 (by decide)⟩,
    C8_read_bounds.2.1 0, C8_read_bounds.2.2 0⟩

/-- **C9** (confirmed): splitting an empty file with any positive chunk size
creates zero chunk files and returns the empty list, yet still writes the
digest sidecar for the empty content; a subsequent merge on that prefix (in a
directory that held no matching names beforehand) finds no chunks and fails
with the not-found error, so the round trip does not hold for empty inputs. -/
theorem C9_empty_input (core : Bytes → Bytes) (d : Dir) (f : Name) (mb : Nat) (o : Option Name)
    (_hmb : 1 ≤ mb) (hclean : ∀ n ∈ listing d, isChunkName f n = false) :
    (split_file core d f [] mb).2 = []
    ∧ (split_file core d f [] mb).1 = writeFile d (sidecarName f) (sha256sum core [])
    ∧ readFile (split_file core d f [] mb).1 (sidecarName f) = some (sha256sum core [])
    ∧ merge_files core (some (split_file core d f [] mb).1) f o = .error .notFound := by
  have hp : ceilDiv ([] : Bytes).length (mb * (1 <<< 20)) = 0 := ceilDiv_zero_left _
  have hw : writeChunks (mb * (1 <<< 20)) f [] (List.range 0) d = d := rfl
  refine ⟨?_, ?_, ?_, ?_⟩
  · rw [split_file_snd, hp]
    rfl
  · rw [split_file_fst, hp, hw]
  · rw [split_file_fst]
    exact readFile_writeFile_self _ _ _
  · apply merge_files_notFound_of_clean
    intro n hn
    rw [split_file_fst, hp, hw, listing_writeFile] at hn
    rcases List.mem_append.mp hn with h1 | h1
    · exact hclean n (List.mem_of_mem_filter h1)
    · simp at h1
      subst h1
      exact isChunkName_sidecarName f

/-- **C9** witness: the concrete empty-file split with chunk size 1 MiB into
an empty directory, and the failing merge after it. -/
theorem C9_empty_input_witness :
    ((1 : Nat) ≤ 1 ∧ (∀ n ∈ listing ([] : Dir), isChunkName [102] n = false))
    ∧ ((split_file (fun _ => [3]) [] [102] [] 1).2 = []
    ∧ (split_file (fun _ => [3]) [] [102] [] 1).1
        = writeFile [] (sidecarName [102]) (sha256sum (fun _ => [3]) [])
    ∧ readFile (split_file (fun _ => [3]) [] [102] [] 1).1 (sidecarName [102])
        = some (sha256sum (fun _ => [3]) [])
    ∧ merge_files (fun _ => [3]) (some (split_file (fun _ => [3]) [] [102] [] 1).1) [102] none
        = .error .notFound) :=
  ⟨⟨le_refl 1, by simp [listing]⟩,
    C9_empty_input (fun _ => [3]) [] [102] 1 none (le_refl 1) (by simp [listing])⟩

/-- **C10** (confirmed): the discovery pattern accepts exactly the names
`<prefix>.<3 decimal digits>` — the sidecar name `<prefix>.sha256` never
matches it (so the sidecar is never concatenated as a chunk), chunk names with
index 1000 or above are formatted with four or more digits and never match (so
a split beyond 1000 chunks is silently truncated at merge), and every index
0–999 produces a matching name. -/
theorem C10_discovery_cap :
    (∀ f : Name, isChunkName f (sidecarName f) = false)
    ∧ (∀ (f : Name) (i : Nat), 1000 ≤ i → isChunkName f (chunkName f i) = false)
    ∧ (∀ (f : Name) (i : Nat), i < 1000 → isChunkName f (chunkName f i) = true) := by
  refine ⟨isChunkName_sidecarName, ?_, ?_⟩
  · intro f i hi
    rw [isChunkName_chunkName]
    simp
    omega
  · intro f i hi
    rw [isChunkName_chunkName]
    simp [hi]

/-- **C10** witness: for prefix `"f"`, the sidecar name does not match the
pattern, index 1000 does not match, and index 999 does. -/
theorem C10_discovery_cap_witness :
    isChunkName [102] (sidecarName [102]) = false
    ∧ ((1000 : Nat) ≤ 1000 ∧ isChunkName [102] (chunkName [102] 1000) = false)
    ∧ ((999 : Nat) < 1000 ∧ isChunkName [102] (chunkName [102] 999) = true) :=
  ⟨C10_discovery_cap.1 [102],
    ⟨le_refl 1000, C10_discovery_cap.2.1 [102] 1000 (le_refl 1000)⟩,
    ⟨by decide, C10_discovery_cap.2.2 [102] 999 (by decide)⟩⟩

end FileSplitMerge
